import Mathlib

/-!
Verification of the epycom line-length HFO detector and its signal-transform
primitives, shallowly embedded from `epycom/utils/signal_transforms.py` and
`epycom/event_detection/hfo/ll_detector.py`.  Signals are modelled as lists
over a linear ordered field (instantiated at `ℝ` for the claims); numpy
arrays become lists, slices become `drop`/`take`, and a raised exception
becomes `none`.
-/

namespace Epycom

/-- Full-mode discrete convolution, as `np.convolve(a, v)`:
`data[k] = ∑_{j} a[j] * v[k - j]`, output length `a.length + v.length - 1`.
Out-of-range indices contribute `0`. -/
def convolve {α : Type*} [LinearOrderedField α] (a v : List α) : List α :=
  (List.range (a.length + v.length - 1)).map (fun k =>
    ∑ j ∈ Finset.range (k + 1), a.getD j 0 * v.getD (k - j) 0)

/-- `compute_line_lenght` from `signal_transforms.py`:
absolute first differences, full convolution with an averaging window of
`window_size` ones divided by `window_size`, then the slice
`data[floor(w/2) : -ceil(w/2)]`. -/
def compute_line_lenght {α : Type*} [LinearOrderedField α]
    (signal : List α) (window_size : ℕ) : List α :=
  let aux := List.zipWith (fun b a => |b - a|) signal.tail signal
  let window := List.replicate window_size ((1 : α) / window_size)
  let data := convolve aux window
  (data.drop (window_size / 2)).take
    (data.length - window_size / 2 - (window_size - window_size / 2))

/-- `compute_teager_energy` from `signal_transforms.py`:
`energy[n] = x[n+1]^2 - x[n]*x[n+2]` for `n < N-2`, then the first value is
prepended and the last appended (`np.append(energy[0], energy)` followed by
`np.append(energy, energy[-1])`).  Indexing `energy[0]` of an empty array
raises in numpy, modelled as `none`. -/
def compute_teager_energy {α : Type*} [LinearOrderedField α]
    (signal : List α) : Option (List α) :=
  let energy := (List.range (signal.length - 2)).map (fun n =>
    signal.getD (n + 1) 0 ^ 2 - signal.getD n 0 * signal.getD (n + 2) 0)
  match energy.head?, energy.getLast? with
  | some h, some l => some ((h :: energy) ++ [l])
  | _, _ => none

/-- Same-mode discrete convolution, as `np.convolve(a, v, 'same')`:
the centered `max(a.length, v.length)` part of the full convolution,
starting at offset `(min(a.length, v.length) - 1) / 2`. -/
def convolveSame {α : Type*} [LinearOrderedField α] (a v : List α) : List α :=
  ((convolve a v).drop ((min a.length v.length - 1) / 2)).take
    (max a.length v.length)

/-- `compute_stenergy` from `signal_transforms.py`: same-mode convolution of
the squared samples with the averaging window. -/
def compute_stenergy {α : Type*} [LinearOrderedField α]
    (signal : List α) (window_size : ℕ) : List α :=
  let aux := signal.map (fun x => x ^ 2)
  let window := List.replicate window_size ((1 : α) / window_size)
  convolveSame aux window

/-- `compute_rms` from `signal_transforms.py`: square root of the same-mode
convolution of the squared samples with the averaging window. -/
noncomputable def compute_rms (signal : List ℝ) (window_size : ℕ) : List ℝ :=
  let aux := signal.map (fun x => x ^ 2)
  let window := List.replicate window_size ((1 : ℝ) / window_size)
  (convolveSame aux window).map Real.sqrt

/-- Mean plus `k` standard deviations.
Modelled from the spec: `th_std` lives in `epycom/utils/thresholds.py`, which
is not among the sources; per the spec (ThresholdCalculator) it returns
`mean + k * population_standard_deviation` of the feature sequence. -/
noncomputable def th_std (vals : List ℝ) (k : ℝ) : ℝ :=
  vals.sum / vals.length +
    k * Real.sqrt
      ((vals.map (fun x => (x - vals.sum / vals.length) ^ 2)).sum / vals.length)

/-- The feature value the detector stores for the window starting at `s`:
`compute_line_lenght(sig[win_start:win_stop], window_size)[0]` with
`win_stop` clipped to the signal length (`headD 0`; emptiness is handled
separately by `llLoop`). -/
def llFeat {α : Type*} [LinearOrderedField α] (sig : List α) (w s : ℕ) : α :=
  (compute_line_lenght ((sig.drop s).take (min (s + w) sig.length - s)) w).headD 0

/-- The overlapping-window feature loop of `detect_hfo_ll`
(`while win_start < len(sig): ...`), with `s` the current `win_start` and
`s + w` the unclipped `win_stop`.  Indexing `[0]` into an empty
line-length array raises in numpy, modelled as `none`; the `fuel` argument
dominates the number of iterations (the callers supply enough for every
terminating run; a zero `window_increment` makes the Python loop run
forever, modelled as `none` by fuel exhaustion). -/
def llLoop {α : Type*} [LinearOrderedField α] :
    ℕ → List α → ℕ → ℕ → ℕ → Option (List α)
  | 0, _, _, _, _ => none
  | fuel + 1, sig, w, inc, s =>
    if s < sig.length then
      match (compute_line_lenght ((sig.drop s).take (min (s + w) sig.length - s)) w).head? with
      | none => none
      | some v =>
        if min (s + w) sig.length = sig.length then some [v]
        else Option.map (fun L => v :: L) (llLoop fuel sig w inc (s + inc))
    else some []

/-- The feature sequence `LL` built by the windowing loop of
`detect_hfo_ll`, starting from `win_start = 0`. -/
def computeLL {α : Type*} [LinearOrderedField α]
    (sig : List α) (w inc : ℕ) : Option (List α) :=
  llLoop (sig.length + 1) sig w inc 0

/-- Length of the run of consecutive above-or-equal-threshold values at the
head of the list: the inner `while LL_idx < len(LL) and LL[LL_idx] >= det_th`
loop of `detect_hfo_ll`. -/
def runLen {α : Type*} [LinearOrderedField α] (th : α) : List α → ℕ
  | [] => 0
  | x :: xs => if th ≤ x then runLen th xs + 1 else 0

/-- The index at which the inner threshold-run loop of `detect_hfo_ll`
stops when started at `idx`. -/
def runEnd {α : Type*} [LinearOrderedField α] (LL : List α) (th : α) (idx : ℕ) : ℕ :=
  idx + runLen th (LL.drop idx)

/-- The detection scan of `detect_hfo_ll` (`while LL_idx < len(LL): ...`):
on an above-or-equal-threshold value at `idx` it advances to
`i1 = runEnd LL th idx`, emits
`(idx * window_increment, min (i1 * window_increment + window_size) N)`,
and resumes at `i1 + 1`; below-threshold indices are skipped one at a time. -/
def scanFrom {α : Type*} [LinearOrderedField α] (LL : List α) (th : α)
    (inc w N : ℕ) (idx : ℕ) : List (ℕ × ℕ) :=
  if h : idx < LL.length then
    if th ≤ LL.getD idx 0 then
      (idx * inc, min (runEnd LL th idx * inc + w) N) ::
        scanFrom LL th inc w N (runEnd LL th idx + 1)
    else
      scanFrom LL th inc w N (idx + 1)
  else []
termination_by LL.length + 1 - idx
decreasing_by
  · simp only [runEnd]; omega
  · omega

/-- `detect_hfo_ll` from `ll_detector.py`: compute
`window_increment = ceil(window_size * window_overlap)`, build the feature
sequence via the windowing loop, derive the threshold `th_std(LL, threshold)`
and scan for events.  `fs` is accepted but never used by the computation,
exactly as in the source. -/
noncomputable def detect_hfo_ll (sig : List ℝ) (fs : ℝ) (threshold : ℝ)
    (window_size : ℕ) (window_overlap : ℝ) : Option (List (ℕ × ℕ)) :=
  Option.map
    (fun LL => scanFrom LL (th_std LL threshold)
      ⌈(window_size : ℝ) * window_overlap⌉₊ window_size sig.length 0)
    (computeLL sig window_size ⌈(window_size : ℝ) * window_overlap⌉₊)

/-- `n_windows = int(np.ceil((len(sig) - window_size) / window_increment)) + 1`
from `detect_hfo_ll` (as a natural number; the subtraction is taken in `ℝ`
exactly as numpy does, and the claims keep `window_size ≤ N` so the argument
of the ceiling is nonnegative). -/
noncomputable def n_windows (N w inc : ℕ) : ℕ :=
  ⌈((N : ℝ) - w) / inc⌉₊ + 1


/-- `np.linspace(a, b, num)`: `num` evenly spaced points from `a` to `b`
inclusive (a single point for `num = 1`). -/
noncomputable def linspace (a b : ℝ) (num : ℕ) : List ℝ :=
  if num = 1 then [a]
  else (List.range num).map (fun (t : ℕ) => a + t * (b - a) / ((num : ℝ) - 1))

/-- `np.fft.fft`: the discrete Fourier transform
`X[k] = ∑_j x[j]·exp(-2πi·jk/n)`. -/
noncomputable def fftC (x : List ℂ) : List ℂ :=
  (List.range x.length).map (fun (k : ℕ) =>
    ∑ j ∈ Finset.range x.length,
      x.getD j 0 * Complex.exp (-2 * Real.pi * Complex.I * j * k / x.length))

/-- `np.fft.ifft`: the inverse discrete Fourier transform
`x[k] = (∑_j X[j]·exp(2πi·jk/n)) / n`. -/
noncomputable def ifftC (x : List ℂ) : List ℂ :=
  (List.range x.length).map (fun (k : ℕ) =>
    (∑ j ∈ Finset.range x.length,
      x.getD j 0 * Complex.exp (2 * Real.pi * Complex.I * j * k / x.length)) / x.length)

/-- `_g_window` from `signal_transforms.py`: the sum of the two squared,
scaled and exponentiated index ramps `0..L-1` and `-L..-1`. -/
noncomputable def g_window (L : ℕ) (freq factor : ℝ) : List ℝ :=
  (List.range L).map (fun (j : ℕ) =>
    Real.exp ((j : ℝ) ^ 2 * (-factor * 2 * Real.pi ^ 2 / freq ^ 2)) +
      Real.exp (((j : ℝ) - L) ^ 2 * (-factor * 2 * Real.pi ^ 2 / freq ^ 2)))

/-- A numpy row assignment `st[r, :] = row`: fails (raises) when the row index
is out of bounds or the assigned vector does not have exactly `n` entries
(numpy broadcast error). -/
def setRow (st : List (List ℂ)) (r n : ℕ) (row : List ℂ) :
    Option (List (List ℂ)) :=
  if r < st.length ∧ row.length = n then some (st.set r row) else none

/-- One spectral row of the Stockwell transform:
`np.fft.ifft(vector_fft[int(a) : int(a) + n] * _g_window(n, freq, factor))`. -/
noncomputable def stockwellRow (vfft : List ℂ) (n : ℕ) (a : ℤ)
    (freq factor : ℝ) : List ℂ :=
  ifftC (List.zipWith (fun c g => c * g)
    ((vfft.drop a.toNat).take n)
    ((g_window n freq factor).map Complex.ofReal))

/-- The output matrix `st` of `compute_stockwell_transform`: a zero matrix of
`ceil((max_freq - min_freq + 1)/f_fs)` rows and `n` columns, whose row 0 is
the signal mean for `min_freq = 0` (else a spectral row), and whose further
rows are written by the loop
`for i in np.linspace(f_fs, max_freq - min_freq, max_freq - min_freq)` at
row index `int((i - 1)/f_fs + 1)`. -/
noncomputable def stockwell_st (signal : List ℝ) (min_freq max_freq : ℕ)
    (f_fs factor : ℝ) : Option (List (List ℂ)) :=
  let n := signal.length
  let sigC : List ℂ := signal.map Complex.ofReal
  let vfft := fftC sigC ++ fftC sigC
  let rows := ⌈((max_freq : ℝ) - min_freq + 1) / f_fs⌉₊
  let st0 : List (List ℂ) := List.replicate rows (List.replicate n 0)
  let row0 : List ℂ :=
    if min_freq = 0 then List.replicate n ((signal.sum / n : ℝ) : ℂ)
    else stockwellRow vfft n min_freq min_freq factor
  (setRow st0 0 n row0).bind (fun st1 =>
    (linspace f_fs ((max_freq : ℝ) - min_freq) (max_freq - min_freq)).foldlM
      (fun st i =>
        setRow st (Int.toNat ⌊(i - 1) / f_fs + 1⌋) n
          (stockwellRow vfft n ⌊(min_freq : ℝ) + i⌋ ((min_freq : ℝ) + i) factor))
      st1)

/-- `compute_stockwell_transform` from `signal_transforms.py`: the matrix
`st` together with the sampled-time vector `t` and the sampled-frequency
vector `f` (the sampling rate `fs` enters only `t` and `f`). -/
noncomputable def compute_stockwell_transform (signal : List ℝ) (fs : ℝ)
    (min_freq max_freq : ℕ) (f_fs factor : ℝ) :
    Option (List (List ℂ) × List ℝ × List ℝ) :=
  let samp_rate := 1 / fs
  let t := (linspace 0 ((signal.length : ℝ) - 1) signal.length).map
    (fun x => x * samp_rate)
  let spe := ⌈((max_freq : ℝ) - min_freq + 1) / f_fs⌉₊
  let f := (linspace 0 ((spe : ℝ) - 1) spe).map
    (fun x => ((min_freq : ℝ) + x * f_fs) / (samp_rate * signal.length))
  (stockwell_st signal min_freq max_freq f_fs factor).bind
    (fun st => some (st, t, f))

/-! ### Length of the convolution and of `compute_line_lenght` -/

theorem convolve_length {α : Type*} [LinearOrderedField α] (a v : List α) :
    (convolve a v).length = a.length + v.length - 1 := by
  simp [convolve]

theorem compute_line_lenght_length {α : Type*} [LinearOrderedField α]
    (signal : List α) (w : ℕ) (h2 : 2 ≤ signal.length) (h1 : 1 ≤ w) :
    (compute_line_lenght signal w).length = signal.length - 2 := by
  unfold compute_line_lenght
  simp only [List.length_take, List.length_drop, convolve_length,
    List.length_zipWith, List.length_tail, List.length_replicate]
  omega

/-- C3: the claim asserts `compute_line_lenght` returns a sequence of length
`N - w`; at the signal `[0,0,0,0]` with `window_size = 1` the code returns a
sequence of length `2`, not `4 - 1 = 3`. -/
theorem claim_C3_counterexample :
    (compute_line_lenght ([0, 0, 0, 0] : List ℝ) 1).length ≠
      ([0, 0, 0, 0] : List ℝ).length - 1 := by
  rw [compute_line_lenght_length ([0, 0, 0, 0] : List ℝ) 1 (by norm_num) le_rfl]
  norm_num

/-- C3 (amended): for every real signal of length `N ≥ 2` and every
`window_size ≥ 1`, `compute_line_lenght` returns a sequence of length
exactly `N - 2` (the full convolution has length `N - 1 + w - 1` and the
slice trims `floor(w/2) + ceil(w/2) = w` entries), not `N - w`. -/
theorem claim_C3 (signal : List ℝ) (w : ℕ)
    (h2 : 2 ≤ signal.length) (h1 : 1 ≤ w) :
    (compute_line_lenght signal w).length = signal.length - 2 :=
  compute_line_lenght_length signal w h2 h1

theorem claim_C3_witness :
    2 ≤ ([0, 1, 0, 1, 0, 1, 0, 1] : List ℝ).length ∧ 1 ≤ 2 ∧
      (compute_line_lenght ([0, 1, 0, 1, 0, 1, 0, 1] : List ℝ) 2).length =
        ([0, 1, 0, 1, 0, 1, 0, 1] : List ℝ).length - 2 :=
  ⟨by norm_num, by norm_num,
    claim_C3 ([0, 1, 0, 1, 0, 1, 0, 1] : List ℝ) 2 (by norm_num) (by norm_num)⟩

/-! ### Teager energy -/

/-- C8: for every real signal of length `N ≥ 3`, `compute_teager_energy`
returns a sequence of length exactly `N` whose interior entries equal
`x[n]^2 - x[n-1]*x[n+1]` for `1 ≤ n ≤ N-2`, and whose first and last entries
replicate the nearest computed interior value. -/
theorem claim_C8 (signal : List ℝ) (h : 3 ≤ signal.length) :
    ∃ L, compute_teager_energy signal = some L ∧
      L.length = signal.length ∧
      (∀ n, 1 ≤ n → n + 1 < signal.length →
        L.getD n 0 = signal.getD n 0 ^ 2 -
          signal.getD (n - 1) 0 * signal.getD (n + 1) 0) ∧
      L.getD 0 0 = L.getD 1 0 ∧
      L.getD (signal.length - 1) 0 = L.getD (signal.length - 2) 0 := by
  obtain ⟨m, hm⟩ : ∃ m, signal.length - 2 = m + 1 := ⟨signal.length - 3, by omega⟩
  set f : ℕ → ℝ := fun n =>
    signal.getD (n + 1) 0 ^ 2 - signal.getD n 0 * signal.getD (n + 2) 0 with hf
  set E : List ℝ := (List.range (signal.length - 2)).map f with hEdef
  have hlen : E.length = signal.length - 2 := by
    rw [hEdef]; simp
  have hhead : E.head? = some (f 0) := by
    rw [hEdef, hm, List.range_succ_eq_map]; simp
  have hlast : E.getLast? = some (f m) := by
    rw [hEdef, hm, List.range_succ, List.map_append]; simp
  have hEget : ∀ i, i < signal.length - 2 → E.getD i 0 = f i := by
    intro i hi
    rw [hEdef, List.getD_eq_getElem?_getD, List.getElem?_map, List.getElem?_range hi]
    rfl
  have hE : compute_teager_energy signal = some (f 0 :: (E ++ [f m])) := by
    unfold compute_teager_energy
    rw [← hf]
    simp only [← hEdef, hhead, hlast, List.cons_append]
  refine ⟨_, hE, ?_, ?_, ?_, ?_⟩
  · simp only [List.length_cons, List.length_append, hlen, List.length_nil]
    omega
  · intro n hn1 hn2
    obtain ⟨k, rfl⟩ : ∃ k, n = k + 1 := ⟨n - 1, by omega⟩
    rw [List.getD_cons_succ, List.getD_append _ _ _ _ (by rw [hlen]; omega),
      hEget k (by omega)]
    simp [hf]
  · rw [List.getD_cons_zero, List.getD_cons_succ,
      List.getD_append _ _ _ _ (by rw [hlen]; omega), hEget 0 (by omega)]
  · have h1 : signal.length - 1 = (m + 1) + 1 := by omega
    rw [h1, hm, List.getD_cons_succ, List.getD_cons_succ,
      List.getD_append_right _ _ _ _ (by rw [hlen]; omega),
      List.getD_append _ _ _ _ (by rw [hlen]; omega), hEget m (by omega), hlen, hm]
    simp

theorem claim_C8_witness :
    3 ≤ ([1, 2, 3] : List ℝ).length ∧
      ∃ L, compute_teager_energy ([1, 2, 3] : List ℝ) = some L ∧
        L.length = ([1, 2, 3] : List ℝ).length ∧
        (∀ n, 1 ≤ n → n + 1 < ([1, 2, 3] : List ℝ).length →
          L.getD n 0 = ([1, 2, 3] : List ℝ).getD n 0 ^ 2 -
            ([1, 2, 3] : List ℝ).getD (n - 1) 0 *
              ([1, 2, 3] : List ℝ).getD (n + 1) 0) ∧
        L.getD 0 0 = L.getD 1 0 ∧
        L.getD (([1, 2, 3] : List ℝ).length - 1) 0 =
          L.getD (([1, 2, 3] : List ℝ).length - 2) 0 :=
  ⟨by norm_num, claim_C8 ([1, 2, 3] : List ℝ) (by norm_num)⟩

/-! ### RMS energy versus short-time energy -/

/-- C10: for every real signal and every `window_size ≥ 1`,
`compute_rms` is the pointwise square root of `compute_stenergy`: both build
the same same-mode convolution of the squared samples with the averaging
window, and `compute_rms` additionally applies `Real.sqrt` pointwise. -/
theorem claim_C10 (signal : List ℝ) (w : ℕ) (h : 1 ≤ w) :
    compute_rms signal w = (compute_stenergy signal w).map Real.sqrt := rfl

theorem claim_C10_witness :
    1 ≤ 2 ∧ compute_rms ([1, 2] : List ℝ) 2 =
      (compute_stenergy ([1, 2] : List ℝ) 2).map Real.sqrt :=
  ⟨by norm_num, claim_C10 ([1, 2] : List ℝ) 2 (by norm_num)⟩

/-! ### Properties of the threshold-run scan -/

theorem runEnd_ge {α : Type*} [LinearOrderedField α] (LL : List α) (th : α)
    (idx : ℕ) : idx ≤ runEnd LL th idx :=
  Nat.le_add_right _ _

theorem runLen_all {α : Type*} [LinearOrderedField α] (th : α) (l : List α)
    (h : ∀ x ∈ l, th ≤ x) : runLen th l = l.length := by
  induction l with
  | nil => rfl
  | cons x xs ih =>
    rw [runLen, if_pos (h x (List.mem_cons_self x xs)),
      ih (fun y hy => h y (List.mem_cons_of_mem x hy))]
    rfl

theorem runEnd_succ_le {α : Type*} [LinearOrderedField α] (LL : List α) (th : α)
    (idx : ℕ) (h1 : idx < LL.length) (h2 : th ≤ LL.getD idx 0) :
    idx + 1 ≤ runEnd LL th idx := by
  unfold runEnd
  rw [List.drop_eq_getElem_cons h1, runLen,
    if_pos (by rwa [List.getD_eq_getElem LL 0 h1] at h2)]
  omega

theorem runEnd_all {α : Type*} [LinearOrderedField α] (LL : List α) (th : α)
    (hall : ∀ x ∈ LL, th ≤ x) : runEnd LL th 0 = LL.length := by
  unfold runEnd
  rw [List.drop_zero, runLen_all th LL hall]
  omega

theorem scanFrom_mem {α : Type*} [LinearOrderedField α] (LL : List α) (th : α)
    (inc w N : ℕ) :
    ∀ idx ev, ev ∈ scanFrom LL th inc w N idx →
      ∃ i, idx ≤ i ∧ i < LL.length ∧ th ≤ LL.getD i 0 ∧
        ev = (i * inc, min (runEnd LL th i * inc + w) N) := by
  have H : ∀ fuel idx, LL.length + 1 - idx ≤ fuel →
      ∀ ev, ev ∈ scanFrom LL th inc w N idx →
        ∃ i, idx ≤ i ∧ i < LL.length ∧ th ≤ LL.getD i 0 ∧
          ev = (i * inc, min (runEnd LL th i * inc + w) N) := by
    intro fuel
    induction fuel with
    | zero =>
      intro idx hle ev hev
      rw [scanFrom, dif_neg (by omega)] at hev
      simp at hev
    | succ fuel ih =>
      intro idx hle ev hev
      rw [scanFrom] at hev
      by_cases hidx : idx < LL.length
      · rw [dif_pos hidx] at hev
        by_cases hth : th ≤ LL.getD idx 0
        · rw [if_pos hth] at hev
          rcases List.mem_cons.mp hev with rfl | hev2
          · exact ⟨idx, le_rfl, hidx, hth, rfl⟩
          · have hre := runEnd_succ_le LL th idx hidx hth
            obtain ⟨i, hi1, hi2, hi3, hi4⟩ :=
              ih (runEnd LL th idx + 1) (by omega) ev hev2
            exact ⟨i, by omega, hi2, hi3, hi4⟩
        · rw [if_neg hth] at hev
          obtain ⟨i, hi1, hi2, hi3, hi4⟩ := ih (idx + 1) (by omega) ev hev
          exact ⟨i, by omega, hi2, hi3, hi4⟩
      · rw [dif_neg hidx] at hev
        simp at hev
  exact fun idx => H (LL.length + 1) idx (by omega)

theorem scanFrom_chain {α : Type*} [LinearOrderedField α] (LL : List α) (th : α)
    (inc w N : ℕ) (hinc : 1 ≤ inc) :
    ∀ idx, (scanFrom LL th inc w N idx).Chain' (fun a b => a.1 < b.1) := by
  have H : ∀ fuel idx, LL.length + 1 - idx ≤ fuel →
      (scanFrom LL th inc w N idx).Chain' (fun a b => a.1 < b.1) := by
    intro fuel
    induction fuel with
    | zero =>
      intro idx hle
      rw [scanFrom, dif_neg (by omega)]
      exact List.chain'_nil
    | succ fuel ih =>
      intro idx hle
      rw [scanFrom]
      by_cases hidx : idx < LL.length
      · rw [dif_pos hidx]
        by_cases hth : th ≤ LL.getD idx 0
        · rw [if_pos hth]
          have hre := runEnd_succ_le LL th idx hidx hth
          refine List.chain'_cons'.mpr ⟨?_, ih (runEnd LL th idx + 1) (by omega)⟩
          intro y hy
          have hmem : y ∈ scanFrom LL th inc w N (runEnd LL th idx + 1) :=
            List.mem_of_mem_head? hy
          obtain ⟨i, hi1, _, _, hi4⟩ := scanFrom_mem LL th inc w N _ y hmem
          rw [hi4]
          have hle2 : (idx + 1) * inc ≤ i * inc :=
            Nat.mul_le_mul_right inc (by omega)
          calc idx * inc < (idx + 1) * inc := by
                have := Nat.add_mul idx 1 inc
                omega
          _ ≤ i * inc := hle2
        · rw [if_neg hth]
          exact ih (idx + 1) (by omega)
      · rw [dif_neg hidx]
        exact List.chain'_nil
  intro idx
  exact H (LL.length + 1) idx (by omega)

theorem scanFrom_all {α : Type*} [LinearOrderedField α] (LL : List α) (th : α)
    (inc w N : ℕ) (hne : LL ≠ []) (hall : ∀ x ∈ LL, th ≤ x) :
    scanFrom LL th inc w N 0 = [(0, min (LL.length * inc + w) N)] := by
  have hlen : 0 < LL.length := List.length_pos.mpr hne
  have hget : th ≤ LL.getD 0 0 := by
    rcases LL with _ | ⟨x, xs⟩
    · simp at hlen
    · exact hall x (List.mem_cons_self x xs)
  rw [scanFrom, dif_pos hlen, if_pos hget, runEnd_all LL th hall,
    scanFrom, dif_neg (by omega)]
  simp

/-! ### Properties of the windowing loop -/

theorem head?_eq_headD {α : Type*} (l : List α) (d : α) (h : 0 < l.length) :
    l.head? = some (l.headD d) := by
  rcases l with _ | ⟨x, xs⟩
  · simp at h
  · rfl

theorem llFeat_head {α : Type*} [LinearOrderedField α] (sig : List α) (w s : ℕ)
    (hw : 1 ≤ w) (hs : s < sig.length) (h3 : 3 ≤ min w (sig.length - s)) :
    (compute_line_lenght ((sig.drop s).take (min (s + w) sig.length - s)) w).head? =
      some (llFeat sig w s) := by
  apply head?_eq_headD
  rw [compute_line_lenght_length _ w ?_ hw]
  · simp only [List.length_take, List.length_drop]
    omega
  · simp only [List.length_take, List.length_drop]
    omega

theorem llLoop_start_lt {α : Type*} [LinearOrderedField α] (sig : List α)
    (w inc : ℕ) :
    ∀ fuel s l, llLoop fuel sig w inc s = some l →
      ∀ t, t < l.length → s + t * inc < sig.length := by
  intro fuel
  induction fuel with
  | zero => intro s l h; simp [llLoop] at h
  | succ fuel ih =>
    intro s l h t ht
    rw [llLoop] at h
    by_cases hs : s < sig.length
    · rw [if_pos hs] at h
      rcases hh : (compute_line_lenght ((sig.drop s).take (min (s + w) sig.length - s)) w).head? with _ | v
      · simp [hh] at h
      · simp only [hh] at h
        by_cases hstop : min (s + w) sig.length = sig.length
        · rw [if_pos hstop] at h
          have hl : [v] = l := by simpa using h
          subst hl
          simp only [List.length_singleton] at ht
          have ht0 : t = 0 := by omega
          subst ht0
          simpa using hs
        · rw [if_neg hstop] at h
          rcases hrec : llLoop fuel sig w inc (s + inc) with _ | L
          · rw [hrec] at h
            simp at h
          · rw [hrec] at h
            have hl : v :: L = l := by simpa using h
            subst hl
            rcases t with _ | t
            · simpa using hs
            · simp only [List.length_cons, Nat.add_lt_add_iff_right] at ht
              have h1 := ih (s + inc) L hrec t ht
              have h2 : s + inc + t * inc = s + (t + 1) * inc := by ring
              omega
    · rw [if_neg hs] at h
      have hl : [] = l := by simpa using h
      subst hl
      simp at ht

theorem cnt_step (A inc : ℕ) (hinc : 1 ≤ inc) (hA : 1 ≤ A) :
    (A + inc - 1) / inc + 1 = ((A - inc + inc - 1) / inc + 1) + 1 := by
  have h1 : A + inc - 1 = (A - 1) + inc := by omega
  rw [h1, Nat.add_div_right _ hinc]
  rcases le_or_lt inc A with h | h
  · have h2 : A - inc + inc - 1 = A - 1 := by omega
    rw [h2]
  · rw [Nat.div_eq_of_lt (by omega : A - 1 < inc),
      Nat.div_eq_of_lt (by omega : A - inc + inc - 1 < inc)]

theorem llLoop_some {α : Type*} [LinearOrderedField α] (sig : List α)
    (w inc : ℕ) (hinc : 1 ≤ inc) (hw : inc + 2 ≤ w) :
    ∀ fuel s, s < sig.length → 3 ≤ sig.length - s →
      (sig.length - w - s + inc - 1) / inc + 1 ≤ fuel →
      llLoop fuel sig w inc s =
        some ((List.range ((sig.length - w - s + inc - 1) / inc + 1)).map
          (fun t => llFeat sig w (s + t * inc))) := by
  intro fuel
  induction fuel with
  | zero =>
    intro s h1 h2 h3
    exact (Nat.not_succ_le_zero _ h3).elim
  | succ fuel ih =>
    intro s h1 h2 h3
    rw [llLoop, if_pos h1]
    simp only [llFeat_head sig w s (by omega) h1 (by omega)]
    by_cases hstop : min (s + w) sig.length = sig.length
    · rw [if_pos hstop]
      have hA : sig.length - w - s = 0 := by omega
      rw [hA]
      have hcnt : (0 + inc - 1) / inc + 1 = 1 := by
        rw [Nat.div_eq_of_lt (by omega : 0 + inc - 1 < inc)]
      rw [hcnt]
      simp [List.range_succ]
    · rw [if_neg hstop]
      have hA1 : 1 ≤ sig.length - w - s := by omega
      have hs2 : s + inc < sig.length := by omega
      have h22 : 3 ≤ sig.length - (s + inc) := by omega
      have hAstep : sig.length - w - (s + inc) = sig.length - w - s - inc := by
        omega
      have hcnt := cnt_step (sig.length - w - s) inc hinc hA1
      have h32 : (sig.length - w - (s + inc) + inc - 1) / inc + 1 ≤ fuel := by
        rw [hAstep]
        omega
      rw [ih (s + inc) hs2 h22 h32]
      simp only [Option.map_some']
      conv_rhs =>
        rw [show (sig.length - w - s + inc - 1) / inc + 1 =
            ((sig.length - w - (s + inc) + inc - 1) / inc + 1) + 1 from by
          rw [hAstep]; exact hcnt]
        rw [List.range_succ_eq_map, List.map_cons, List.map_map]
      congr 1
      congr 1
      · simp
      · apply List.map_congr_left
        intro t ht
        simp only [Function.comp_apply]
        congr 1
        simp only [Nat.succ_eq_add_one]
        ring

theorem computeLL_some {α : Type*} [LinearOrderedField α] (sig : List α)
    (w inc : ℕ) (hinc : 1 ≤ inc) (hw : inc + 2 ≤ w) (hwN : w ≤ sig.length) :
    computeLL sig w inc =
      some ((List.range ((sig.length - w + inc - 1) / inc + 1)).map
        (fun t => llFeat sig w (t * inc))) := by
  unfold computeLL
  have hfuel : (sig.length - w - 0 + inc - 1) / inc + 1 ≤ sig.length + 1 := by
    rcases Nat.eq_zero_or_pos (sig.length - w) with hA | hA
    · rw [Nat.sub_zero, hA, Nat.div_eq_of_lt (by omega)]
      omega
    · have hd : (sig.length - w - 0 + inc - 1) / inc ≤ sig.length - w := by
        rw [Nat.sub_zero]
        rw [Nat.div_le_iff_le_mul_add_pred hinc]
        have := Nat.le_mul_of_pos_left (sig.length - w) hinc
        omega
      omega
  rw [llLoop_some sig w inc hinc hw _ 0 (by omega) (by omega) hfuel]
  simp only [Nat.sub_zero, Nat.zero_add]

theorem computeLL_start_lt {α : Type*} [LinearOrderedField α] (sig : List α)
    (w inc : ℕ) (LL : List α) (h : computeLL sig w inc = some LL) :
    ∀ t, t < LL.length → t * inc < sig.length := by
  intro t ht
  have := llLoop_start_lt sig w inc (sig.length + 1) 0 LL h t ht
  simpa using this

/-! ### Constant signals -/

theorem getD_replicate_self {α : Type*} (k j : ℕ) (a : α) :
    (List.replicate k a).getD j a = a := by
  rw [List.getD_eq_getElem?_getD]
  rcases lt_or_ge j k with h | h
  · rw [List.getElem?_replicate, if_pos h]
    rfl
  · rw [List.getElem?_eq_none (by simpa using h)]
    rfl

theorem convolve_zero_left {α : Type*} [LinearOrderedField α] (k : ℕ) (v : List α) :
    convolve (List.replicate k (0 : α)) v =
      List.replicate (k + v.length - 1) 0 := by
  unfold convolve
  have hz : ∀ m ∈ List.range (k + v.length - 1),
      (∑ j ∈ Finset.range (m + 1),
        (List.replicate k (0 : α)).getD j 0 * v.getD (m - j) 0) = (fun _ => (0 : α)) m := by
    intro m _
    apply Finset.sum_eq_zero
    intro j _
    rw [getD_replicate_self, zero_mul]
  rw [List.length_replicate, List.map_congr_left hz, List.map_const', List.length_range]

theorem headD_eq_zero_of_all {α : Type*} [Zero α] (l : List α)
    (h : ∀ x ∈ l, x = 0) : l.headD 0 = 0 := by
  rcases l with _ | ⟨x, xs⟩
  · rfl
  · exact h x (List.mem_cons_self x xs)

theorem cll_replicate_mem {α : Type*} [LinearOrderedField α] (m w : ℕ) (c : α) :
    ∀ x ∈ compute_line_lenght (List.replicate m c) w, x = 0 := by
  intro x hx
  unfold compute_line_lenght at hx
  simp only [List.tail_replicate, List.zipWith_replicate, sub_self, abs_zero,
    convolve_zero_left] at hx
  exact List.eq_of_mem_replicate
    (List.mem_of_mem_drop (List.mem_of_mem_take hx))

theorem llFeat_replicate {α : Type*} [LinearOrderedField α] (N w s : ℕ) (c : α) :
    llFeat (List.replicate N c) w s = 0 := by
  unfold llFeat
  apply headD_eq_zero_of_all
  intro x hx
  rw [List.drop_replicate, List.take_replicate] at hx
  exact cll_replicate_mem _ w c x hx

theorem th_std_replicate_zero (n : ℕ) (k : ℝ) :
    th_std (List.replicate n 0) k = 0 := by
  unfold th_std
  rw [List.sum_replicate, smul_zero, zero_div, List.map_replicate]
  norm_num

/-! ### Numeric helpers -/

theorem natCeil_eval (x : ℝ) (n : ℕ) (h : x = n) : ⌈x⌉₊ = n := by
  rw [h, Nat.ceil_natCast]

theorem natCeil_div_eq (a b : ℕ) (hb : 0 < b) :
    ⌈(a : ℝ) / b⌉₊ = (a + b - 1) / b := by
  rcases Nat.eq_zero_or_pos a with rfl | ha
  · simp [Nat.div_eq_of_lt (by omega : b - 1 < b)]
  · have hmod := Nat.div_add_mod (a + b - 1) b
    have hmodlt : (a + b - 1) % b < b := Nat.mod_lt _ hb
    set q := (a + b - 1) / b with hq
    set r := (a + b - 1) % b with hr
    set P := b * q with hP
    have hq1 : 1 ≤ q := by
      rw [hq]
      exact (Nat.one_le_div_iff hb).mpr (by omega)
    have h3 : (q - 1) * b = P - b := by
      rw [Nat.sub_mul, one_mul, hP, mul_comm]
    rw [Nat.ceil_eq_iff (by omega)]
    constructor
    · rw [lt_div_iff₀ (by exact_mod_cast hb : (0:ℝ) < b)]
      have hlt : (q - 1) * b < a := by omega
      exact_mod_cast hlt
    · rw [div_le_iff₀ (by exact_mod_cast hb : (0:ℝ) < b)]
      have hle : a ≤ q * b := by
        have h4 : q * b = P := by rw [hP, mul_comm]
        omega
      exact_mod_cast hle

/-! ### Concrete detector runs -/

theorem detect_const_zero (k : ℝ) :
    detect_hfo_ll (List.replicate 1000 0) 5000 k 100 (1 / 4) = some [(0, 1000)] := by
  unfold detect_hfo_ll
  rw [natCeil_eval (((100 : ℕ) : ℝ) * (1 / 4)) 25 (by norm_num)]
  rw [computeLL_some _ 100 25 (by norm_num) (by norm_num)
    (by rw [List.length_replicate]; norm_num)]
  simp only [Option.map_some', List.length_replicate]
  rw [show (1000 - 100 + 25 - 1) / 25 + 1 = 37 from by norm_num]
  have hmap : (List.range 37).map
      (fun t => llFeat (List.replicate 1000 (0 : ℝ)) 100 (t * 25)) =
      List.replicate 37 (0 : ℝ) := by
    have hc : ∀ t ∈ List.range 37,
        llFeat (List.replicate 1000 (0 : ℝ)) 100 (t * 25) = (fun _ => (0 : ℝ)) t :=
      fun t _ => llFeat_replicate 1000 100 (t * 25) 0
    rw [List.map_congr_left hc, List.map_const', List.length_range]
  rw [hmap, th_std_replicate_zero,
    scanFrom_all _ _ 25 100 1000 (by simp)
      (fun x hx => le_of_eq (List.eq_of_mem_replicate hx).symm)]
  simp

theorem detect_const_zero_small (fs k : ℝ) :
    detect_hfo_ll (List.replicate 4 0) fs k 4 (1 / 2) = some [(0, 4)] := by
  unfold detect_hfo_ll
  rw [natCeil_eval (((4 : ℕ) : ℝ) * (1 / 2)) 2 (by norm_num)]
  rw [computeLL_some _ 4 2 (by norm_num) (by norm_num)
    (by rw [List.length_replicate])]
  simp only [Option.map_some', List.length_replicate]
  rw [show (4 - 4 + 2 - 1) / 2 + 1 = 1 from by norm_num]
  have hmap : (List.range 1).map
      (fun t => llFeat (List.replicate 4 (0 : ℝ)) 4 (t * 2)) =
      List.replicate 1 (0 : ℝ) := by
    have hc : ∀ t ∈ List.range 1,
        llFeat (List.replicate 4 (0 : ℝ)) 4 (t * 2) = (fun _ => (0 : ℝ)) t :=
      fun t _ => llFeat_replicate 4 4 (t * 2) 0
    rw [List.map_congr_left hc, List.map_const', List.length_range]
  rw [hmap, th_std_replicate_zero,
    scanFrom_all _ _ 2 4 4 (by simp)
      (fun x hx => le_of_eq (List.eq_of_mem_replicate hx).symm)]
  norm_num

/-- C1: the claim asserts an empty event list on the constant-zero signal of
length 1000; the code yields the threshold `mean + 3·std = 0` and the
comparison is `≥`, so it returns the single whole-signal event `(0, 1000)`,
which is not the empty list. -/
theorem claim_C1_counterexample :
    ¬ detect_hfo_ll (List.replicate 1000 0) 5000 3 100 (1 / 4) = some [] := by
  rw [detect_const_zero 3]
  simp

/-- C1 (amended): for the constant-zero signal of length 1000 with
`window_size = 100` and `window_overlap = 0.25`, and every threshold
multiplier k > 0, the feature sequence is identically zero, the threshold
`mean + k·std` equals 0, and since the detection comparison is `≥`, every
window is detected and merged into the single event list `[(0, 1000)]`
(not the empty list). -/
theorem claim_C1 (k : ℝ) (hk : 0 < k) :
    detect_hfo_ll (List.replicate 1000 0) 5000 k 100 (1 / 4) = some [(0, 1000)] :=
  detect_const_zero k

theorem claim_C1_witness :
    (0 : ℝ) < 3 ∧
      detect_hfo_ll (List.replicate 1000 0) 5000 3 100 (1 / 4) = some [(0, 1000)] :=
  ⟨by norm_num, claim_C1 3 (by norm_num)⟩

/-! ### Concrete feature and threshold evaluations for the overlap example -/

theorem llFeat_ov0 : llFeat ([0, 4, 4, 4, 4, 4, 8, 8, 8, 8] : List ℝ) 4 0 = 1 := by
  norm_num [llFeat, compute_line_lenght, convolve, Finset.sum_range_succ,
    List.getD, List.range_succ, abs_of_nonneg]

theorem llFeat_ov2 : llFeat ([0, 4, 4, 4, 4, 4, 8, 8, 8, 8] : List ℝ) 4 2 = 0 := by
  norm_num [llFeat, compute_line_lenght, convolve, Finset.sum_range_succ,
    List.getD, List.range_succ, abs_of_nonneg]

theorem llFeat_ov4 : llFeat ([0, 4, 4, 4, 4, 4, 8, 8, 8, 8] : List ℝ) 4 4 = 1 := by
  norm_num [llFeat, compute_line_lenght, convolve, Finset.sum_range_succ,
    List.getD, List.range_succ, abs_of_nonneg]

theorem llFeat_ov6 : llFeat ([0, 4, 4, 4, 4, 4, 8, 8, 8, 8] : List ℝ) 4 6 = 0 := by
  norm_num [llFeat, compute_line_lenght, convolve, Finset.sum_range_succ,
    List.getD, List.range_succ, abs_of_nonneg]

theorem th_std_ov : th_std [1, 0, 1, 0] 1 = 1 := by
  unfold th_std
  norm_num
  rw [show (4 : ℝ) = 2 ^ 2 by norm_num, Real.sqrt_sq (by norm_num : (0:ℝ) ≤ 2)]
  norm_num

theorem scan_eval_ov :
    scanFrom ([1, 0, 1, 0] : List ℝ) 1 2 4 10 0 = [(0, 6), (4, 10)] := by
  rw [scanFrom, dif_pos (by norm_num),
    if_pos (by norm_num [List.getD_cons_zero] : (1:ℝ) ≤ [1, 0, 1, 0].getD 0 0)]
  rw [show runEnd ([1, 0, 1, 0] : List ℝ) 1 0 = 1 from by norm_num [runEnd, runLen]]
  rw [scanFrom, dif_pos (by norm_num),
    if_pos (by norm_num [List.getD_cons_zero, List.getD_cons_succ] :
      (1:ℝ) ≤ [1, 0, 1, 0].getD 2 0)]
  rw [show runEnd ([1, 0, 1, 0] : List ℝ) 1 2 = 3 from by norm_num [runEnd, runLen]]
  rw [scanFrom, dif_neg (by norm_num)]
  norm_num

theorem detect_overlap_eval :
    detect_hfo_ll ([0, 4, 4, 4, 4, 4, 8, 8, 8, 8] : List ℝ) 5000 1 4 (1 / 2) =
      some [(0, 6), (4, 10)] := by
  unfold detect_hfo_ll
  rw [natCeil_eval (((4 : ℕ) : ℝ) * (1 / 2)) 2 (by norm_num)]
  rw [computeLL_some _ 4 2 (by norm_num) (by norm_num) (by norm_num)]
  simp only [Option.map_some']
  rw [show (([0, 4, 4, 4, 4, 4, 8, 8, 8, 8] : List ℝ).length - 4 + 2 - 1) / 2 + 1 = 4
    from by norm_num]
  rw [show ([0, 4, 4, 4, 4, 4, 8, 8, 8, 8] : List ℝ).length = 10 from by norm_num]
  have hmap : (List.range 4).map
      (fun t => llFeat ([0, 4, 4, 4, 4, 4, 8, 8, 8, 8] : List ℝ) 4 (t * 2)) =
      [1, 0, 1, 0] := by
    rw [show List.range 4 = [0, 1, 2, 3] from by decide]
    simp only [List.map_cons, List.map_nil]
    norm_num [llFeat_ov0, llFeat_ov2, llFeat_ov4, llFeat_ov6]
  rw [hmap, th_std_ov, scan_eval_ov]

/-- C2: the claim asserts `event_stop[i] ≤ event_start[i+1]` for consecutive
events; on the signal `[0,4,4,4,4,4,8,8,8,8]` with `threshold = 1`,
`window_size = 4`, `window_overlap = 0.5` the detector returns the events
`(0, 6)` and `(4, 10)`, and `6 ≤ 4` fails: consecutive events can overlap
because an event extends `window_size` samples past its last window while
the next event can start only `window_increment < window_size` samples
later. -/
theorem claim_C2_counterexample :
    detect_hfo_ll ([0, 4, 4, 4, 4, 4, 8, 8, 8, 8] : List ℝ) 5000 1 4 (1 / 2) =
      some [(0, 6), (4, 10)] ∧
    ¬ List.Chain' (fun a b => a.2 ≤ b.1) [((0 : ℕ), (6 : ℕ)), (4, 10)] :=
  ⟨detect_overlap_eval, by norm_num [List.chain'_cons]⟩

/-- C2 (amended): for every detection result of `detect_hfo_ll` (with
`window_size > 0` and `window_overlap > 0`), the emitted events are sorted
strictly ascending by `event_start`; consecutive events need NOT satisfy
`event_stop[i] ≤ event_start[i+1]` — they can overlap, as the
counterexample shows. -/
theorem claim_C2 (sig : List ℝ) (fs k ov : ℝ) (w : ℕ) (L : List (ℕ × ℕ))
    (hw : 0 < w) (hov : 0 < ov)
    (hdet : detect_hfo_ll sig fs k w ov = some L) :
    L.Chain' (fun a b => a.1 < b.1) := by
  unfold detect_hfo_ll at hdet
  rcases hLL : computeLL sig w ⌈(w : ℝ) * ov⌉₊ with _ | LL
  · rw [hLL] at hdet
    simp at hdet
  · rw [hLL] at hdet
    have hL : scanFrom LL (th_std LL k) ⌈(w : ℝ) * ov⌉₊ w sig.length 0 = L := by
      simpa using hdet
    rw [← hL]
    apply scanFrom_chain
    exact Nat.one_le_iff_ne_zero.mpr (Nat.pos_iff_ne_zero.mp
      (Nat.ceil_pos.mpr (mul_pos (Nat.cast_pos.mpr hw) hov)))

theorem claim_C2_witness :
    0 < 4 ∧ (0 : ℝ) < 1 / 2 ∧
      detect_hfo_ll ([0, 4, 4, 4, 4, 4, 8, 8, 8, 8] : List ℝ) 5000 1 4 (1 / 2) =
        some [(0, 6), (4, 10)] ∧
      List.Chain' (fun a b => a.1 < b.1) [((0 : ℕ), (6 : ℕ)), (4, 10)] :=
  ⟨by norm_num, by norm_num, detect_overlap_eval,
    claim_C2 _ 5000 1 (1 / 2) 4 _ (by norm_num) (by norm_num) detect_overlap_eval⟩

/-- C4: the claim asserts that invalid configurations (`window_size ≤ 0`,
`fs ≤ 0`, or `window_overlap` outside `[0,1)`) raise a configuration error
before the scan; but the code contains no validation at all — a call with
`fs = -1 ≤ 0` succeeds and returns a normal event list. -/
theorem claim_C4_counterexample :
    (-1 : ℝ) ≤ 0 ∧
      detect_hfo_ll (List.replicate 4 0) (-1) 3 4 (1 / 2) = some [(0, 4)] :=
  ⟨by norm_num, detect_const_zero_small (-1) 3⟩

/-- C4 (amended): `detect_hfo_ll` performs no parameter validation: `fs` is
never used (a call with `fs ≤ 0` behaves exactly like a call with any other
`fs` and returns a normal result), and invalid window parameters lead to a
mid-scan failure or nontermination rather than an up-front configuration
error. -/
theorem claim_C4 (sig : List ℝ) (fs fs2 k : ℝ) (w : ℕ) (ov : ℝ) :
    detect_hfo_ll sig fs k w ov = detect_hfo_ll sig fs2 k w ov := rfl

/-- C5: for every non-empty signal with `0 < window_size ≤ N` and
`window_overlap` in `(0, 1)`, every event `(event_start, event_stop)`
emitted by `detect_hfo_ll` satisfies
`0 ≤ event_start < event_stop ≤ N` (starts are naturals, so `0 ≤` holds by
type). -/
theorem claim_C5 (sig : List ℝ) (fs k ov : ℝ) (w : ℕ) (L : List (ℕ × ℕ))
    (hne : sig ≠ []) (hw : 0 < w) (hwN : w ≤ sig.length)
    (hov0 : 0 < ov) (hov1 : ov < 1)
    (hdet : detect_hfo_ll sig fs k w ov = some L) :
    ∀ ev ∈ L, ev.1 < ev.2 ∧ ev.2 ≤ sig.length := by
  intro ev hev
  unfold detect_hfo_ll at hdet
  rcases hLL : computeLL sig w ⌈(w : ℝ) * ov⌉₊ with _ | LL
  · rw [hLL] at hdet
    simp at hdet
  · rw [hLL] at hdet
    have hL : scanFrom LL (th_std LL k) ⌈(w : ℝ) * ov⌉₊ w sig.length 0 = L := by
      simpa using hdet
    rw [← hL] at hev
    obtain ⟨i, hi0, hilen, hith, hev_eq⟩ :=
      scanFrom_mem LL (th_std LL k) ⌈(w : ℝ) * ov⌉₊ w sig.length 0 ev hev
    have hstart : i * ⌈(w : ℝ) * ov⌉₊ < sig.length :=
      computeLL_start_lt sig w ⌈(w : ℝ) * ov⌉₊ LL hLL i hilen
    have hrun := runEnd_succ_le LL (th_std LL k) i hilen hith
    have hmul : i * ⌈(w : ℝ) * ov⌉₊ ≤ runEnd LL (th_std LL k) i * ⌈(w : ℝ) * ov⌉₊ :=
      Nat.mul_le_mul_right _ (by omega)
    rw [hev_eq]
    constructor
    · exact lt_min (by omega) hstart
    · exact min_le_right _ _

theorem claim_C5_witness :
    (List.replicate 4 (0 : ℝ) ≠ []) ∧ 0 < 4 ∧
      4 ≤ (List.replicate 4 (0 : ℝ)).length ∧
      (0 : ℝ) < 1 / 2 ∧ (1 / 2 : ℝ) < 1 ∧
      detect_hfo_ll (List.replicate 4 0) 5000 3 4 (1 / 2) = some [(0, 4)] ∧
      ∀ ev ∈ [((0 : ℕ), (4 : ℕ))],
        ev.1 < ev.2 ∧ ev.2 ≤ (List.replicate 4 (0 : ℝ)).length :=
  ⟨by simp, by norm_num, by simp, by norm_num, by norm_num,
    detect_const_zero_small 5000 3,
    claim_C5 (List.replicate 4 0) 5000 3 (1 / 2) 4 [(0, 4)] (by simp)
      (by norm_num) (by simp) (by norm_num) (by norm_num)
      (detect_const_zero_small 5000 3)⟩

/-! ### Threshold monotonicity: evaluations on the split-run example -/

theorem th_std_split_k1 : th_std [4, 3, 4, 0, 0, 0, 0, 0, 0, 0] (19 / 17) = 3 := by
  unfold th_std
  norm_num
  rw [show (289 : ℝ) = 17 ^ 2 by norm_num, show (100 : ℝ) = 10 ^ 2 by norm_num,
    Real.sqrt_sq (by norm_num : (0:ℝ) ≤ 17), Real.sqrt_sq (by norm_num : (0:ℝ) ≤ 10)]
  norm_num

theorem th_std_split_k2 : th_std [4, 3, 4, 0, 0, 0, 0, 0, 0, 0] (29 / 17) = 4 := by
  unfold th_std
  norm_num
  rw [show (289 : ℝ) = 17 ^ 2 by norm_num, show (100 : ℝ) = 10 ^ 2 by norm_num,
    Real.sqrt_sq (by norm_num : (0:ℝ) ≤ 17), Real.sqrt_sq (by norm_num : (0:ℝ) ≤ 10)]
  norm_num

theorem scan_split_k1 :
    (scanFrom ([4, 3, 4, 0, 0, 0, 0, 0, 0, 0] : List ℝ) 3 1 4 20 0).length = 1 := by
  rw [scanFrom, dif_pos (by norm_num),
    if_pos (by norm_num [List.getD_cons_zero] :
      (3:ℝ) ≤ [4, 3, 4, 0, 0, 0, 0, 0, 0, 0].getD 0 0)]
  rw [show runEnd ([4, 3, 4, 0, 0, 0, 0, 0, 0, 0] : List ℝ) 3 0 = 3 from by
    norm_num [runEnd, runLen]]
  rw [scanFrom, dif_pos (by norm_num),
    if_neg (by norm_num [List.getD_cons_zero, List.getD_cons_succ] :
      ¬ (3:ℝ) ≤ [4, 3, 4, 0, 0, 0, 0, 0, 0, 0].getD 4 0)]
  rw [scanFrom, dif_pos (by norm_num),
    if_neg (by norm_num [List.getD_cons_zero, List.getD_cons_succ] :
      ¬ (3:ℝ) ≤ [4, 3, 4, 0, 0, 0, 0, 0, 0, 0].getD 5 0)]
  rw [scanFrom, dif_pos (by norm_num),
    if_neg (by norm_num [List.getD_cons_zero, List.getD_cons_succ] :
      ¬ (3:ℝ) ≤ [4, 3, 4, 0, 0, 0, 0, 0, 0, 0].getD 6 0)]
  rw [scanFrom, dif_pos (by norm_num),
    if_neg (by norm_num [List.getD_cons_zero, List.getD_cons_succ] :
      ¬ (3:ℝ) ≤ [4, 3, 4, 0, 0, 0, 0, 0, 0, 0].getD 7 0)]
  rw [scanFrom, dif_pos (by norm_num),
    if_neg (by norm_num [List.getD_cons_zero, List.getD_cons_succ] :
      ¬ (3:ℝ) ≤ [4, 3, 4, 0, 0, 0, 0, 0, 0, 0].getD 8 0)]
  rw [scanFrom, dif_pos (by norm_num),
    if_neg (by norm_num [List.getD_cons_zero, List.getD_cons_succ] :
      ¬ (3:ℝ) ≤ [4, 3, 4, 0, 0, 0, 0, 0, 0, 0].getD 9 0)]
  rw [scanFrom, dif_neg (by norm_num)]
  norm_num

theorem scan_split_k2 :
    (scanFrom ([4, 3, 4, 0, 0, 0, 0, 0, 0, 0] : List ℝ) 4 1 4 20 0).length = 2 := by
  rw [scanFrom, dif_pos (by norm_num),
    if_pos (by norm_num [List.getD_cons_zero] :
      (4:ℝ) ≤ [4, 3, 4, 0, 0, 0, 0, 0, 0, 0].getD 0 0)]
  rw [show runEnd ([4, 3, 4, 0, 0, 0, 0, 0, 0, 0] : List ℝ) 4 0 = 1 from by
    norm_num [runEnd, runLen]]
  rw [scanFrom, dif_pos (by norm_num),
    if_pos (by norm_num [List.getD_cons_zero, List.getD_cons_succ] :
      (4:ℝ) ≤ [4, 3, 4, 0, 0, 0, 0, 0, 0, 0].getD 2 0)]
  rw [show runEnd ([4, 3, 4, 0, 0, 0, 0, 0, 0, 0] : List ℝ) 4 2 = 3 from by
    norm_num [runEnd, runLen]]
  rw [scanFrom, dif_pos (by norm_num),
    if_neg (by norm_num [List.getD_cons_zero, List.getD_cons_succ] :
      ¬ (4:ℝ) ≤ [4, 3, 4, 0, 0, 0, 0, 0, 0, 0].getD 4 0)]
  rw [scanFrom, dif_pos (by norm_num),
    if_neg (by norm_num [List.getD_cons_zero, List.getD_cons_succ] :
      ¬ (4:ℝ) ≤ [4, 3, 4, 0, 0, 0, 0, 0, 0, 0].getD 5 0)]
  rw [scanFrom, dif_pos (by norm_num),
    if_neg (by norm_num [List.getD_cons_zero, List.getD_cons_succ] :
      ¬ (4:ℝ) ≤ [4, 3, 4, 0, 0, 0, 0, 0, 0, 0].getD 6 0)]
  rw [scanFrom, dif_pos (by norm_num),
    if_neg (by norm_num [List.getD_cons_zero, List.getD_cons_succ] :
      ¬ (4:ℝ) ≤ [4, 3, 4, 0, 0, 0, 0, 0, 0, 0].getD 7 0)]
  rw [scanFrom, dif_pos (by norm_num),
    if_neg (by norm_num [List.getD_cons_zero, List.getD_cons_succ] :
      ¬ (4:ℝ) ≤ [4, 3, 4, 0, 0, 0, 0, 0, 0, 0].getD 8 0)]
  rw [scanFrom, dif_pos (by norm_num),
    if_neg (by norm_num [List.getD_cons_zero, List.getD_cons_succ] :
      ¬ (4:ℝ) ≤ [4, 3, 4, 0, 0, 0, 0, 0, 0, 0].getD 9 0)]
  rw [scanFrom, dif_neg (by norm_num)]
  norm_num

/-- C6: the claim asserts that for a fixed feature sequence the number of
detected events is non-increasing in the multiplier k; on the feature
sequence `[4,3,4,0,…,0]` (mean 11/10, std 17/10) the multiplier
k1 = 19/17 gives threshold 3 and ONE event, while the larger k2 = 29/17
gives threshold 4 and TWO events: raising the threshold split the single
run `[4,3,4]` into two runs. -/
theorem claim_C6_counterexample :
    (19 / 17 : ℝ) ≤ 29 / 17 ∧
      (scanFrom ([4, 3, 4, 0, 0, 0, 0, 0, 0, 0] : List ℝ)
          (th_std [4, 3, 4, 0, 0, 0, 0, 0, 0, 0] (19 / 17)) 1 4 20 0).length <
        (scanFrom ([4, 3, 4, 0, 0, 0, 0, 0, 0, 0] : List ℝ)
          (th_std [4, 3, 4, 0, 0, 0, 0, 0, 0, 0] (29 / 17)) 1 4 20 0).length := by
  refine ⟨by norm_num, ?_⟩
  rw [th_std_split_k1, th_std_split_k2, scan_split_k1, scan_split_k2]
  norm_num

/-- C6 (amended): for a fixed feature sequence and k1 ≤ k2, the threshold
`th_std` is non-decreasing in k (the standard deviation is non-negative),
and every feature index detected at k2 is also detected at k1 (the
detected-index set shrinks); but the number of EVENTS is not monotone,
because a higher threshold can split one above-threshold run into several,
as the counterexample shows. -/
theorem claim_C6 (LL : List ℝ) (k1 k2 : ℝ) (h : k1 ≤ k2) :
    th_std LL k1 ≤ th_std LL k2 ∧
      ∀ i, i < LL.length → th_std LL k2 ≤ LL.getD i 0 →
        th_std LL k1 ≤ LL.getD i 0 := by
  have hs : (0:ℝ) ≤ Real.sqrt
      ((LL.map (fun x => (x - LL.sum / LL.length) ^ 2)).sum / LL.length) :=
    Real.sqrt_nonneg _
  have hmono : th_std LL k1 ≤ th_std LL k2 := by
    unfold th_std
    have := mul_le_mul_of_nonneg_right h hs
    linarith
  exact ⟨hmono, fun i _ hi => le_trans hmono hi⟩

theorem claim_C6_witness :
    (1 : ℝ) ≤ 2 ∧
      (th_std [0] 1 ≤ th_std [0] 2 ∧
        ∀ i, i < ([0] : List ℝ).length → th_std [0] 2 ≤ ([0] : List ℝ).getD i 0 →
          th_std [0] 1 ≤ ([0] : List ℝ).getD i 0) :=
  ⟨by norm_num, claim_C6 [0] 1 2 (by norm_num)⟩

/-- C7 (amended): with `window_increment = ceil(window_size·window_overlap)`,
`0 < window_overlap < 1`, `window_size ≤ N`, and additionally
`window_increment ≤ window_size - 2` (so every window slice, the clipped
last one included, keeps at least 3 samples and the feature extraction
cannot fail), the windowing loop scores exactly
`n_windows = ceil((N - window_size)/window_increment) + 1` windows: the
feature sequence is exactly the list of the `n_windows` per-window
line-length values, each entry written exactly once.  Without the added
condition the loop can die on a clipped last window of fewer than 3
samples (see the counterexample). -/
theorem claim_C7 (sig : List ℝ) (w : ℕ) (ov : ℝ) (inc : ℕ)
    (hinc : inc = ⌈(w : ℝ) * ov⌉₊) (hov0 : 0 < ov) (hov1 : ov < 1)
    (hw0 : 0 < w) (hwN : w ≤ sig.length) (hsmall : inc + 2 ≤ w) :
    computeLL sig w inc =
      some ((List.range (n_windows sig.length w inc)).map
        (fun t => llFeat sig w (t * inc))) := by
  have hinc1 : 1 ≤ inc := by
    rw [hinc]
    exact Nat.one_le_iff_ne_zero.mpr (Nat.pos_iff_ne_zero.mp
      (Nat.ceil_pos.mpr (mul_pos (Nat.cast_pos.mpr hw0) hov0)))
  rw [computeLL_some sig w inc hinc1 hsmall hwN]
  unfold n_windows
  rw [show ((sig.length : ℝ) - (w : ℝ)) = ((sig.length - w : ℕ) : ℝ) from
    (Nat.cast_sub hwN).symm]
  rw [natCeil_div_eq (sig.length - w) inc hinc1]

theorem claim_C7_witness :
    1 = ⌈((4 : ℕ) : ℝ) * (1 / 4)⌉₊ ∧ (0 : ℝ) < 1 / 4 ∧ (1 / 4 : ℝ) < 1 ∧
      0 < 4 ∧ 4 ≤ (List.replicate 12 (0 : ℝ)).length ∧ 1 + 2 ≤ 4 ∧
      computeLL (List.replicate 12 (0 : ℝ)) 4 1 =
        some ((List.range (n_windows (List.replicate 12 (0 : ℝ)).length 4 1)).map
          (fun t => llFeat (List.replicate 12 (0 : ℝ)) 4 (t * 1))) :=
  ⟨(natCeil_eval (((4 : ℕ) : ℝ) * (1 / 4)) 1 (by norm_num)).symm,
    by norm_num, by norm_num, by norm_num, by simp, by norm_num,
    claim_C7 (List.replicate 12 (0 : ℝ)) 4 (1 / 4) 1
      ((natCeil_eval (((4 : ℕ) : ℝ) * (1 / 4)) 1 (by norm_num)).symm)
      (by norm_num) (by norm_num) (by norm_num) (by simp) (by norm_num)⟩

/-- C7: the claim asserts that the windowing loop always fills the feature
sequence for `0 < window_size ≤ N` and overlap in `(0,1)`; with `N = 4`,
`window_size = 3`, `window_overlap = 0.9` (so `window_increment = 3`), the
second window is the clipped slice `sig[3:4]` of a single sample, whose
line-length feature is empty — indexing `[0]` raises, so the loop dies
mid-way instead of scoring `n_windows` windows. -/
theorem claim_C7_counterexample :
    ⌈((3 : ℕ) : ℝ) * (9 / 10)⌉₊ = 3 ∧
      computeLL ([0, 0, 0, 0] : List ℝ) 3 3 = none := by
  constructor
  · rw [Nat.ceil_eq_iff (by norm_num)]
    constructor
    · push_cast
      norm_num
    · push_cast
      norm_num
  · have e1 : compute_line_lenght ([0, 0, 0] : List ℝ) 3 = [0] := by
      norm_num [compute_line_lenght, convolve, Finset.sum_range_succ, List.getD,
        List.range_succ]
    have e2 : compute_line_lenght ([0] : List ℝ) 3 = [] := by
      norm_num [compute_line_lenght, convolve, Finset.sum_range_succ, List.getD,
        List.range_succ]
    unfold computeLL
    rw [show ([0, 0, 0, 0] : List ℝ).length + 1 = 4 + 1 from rfl, llLoop,
      if_pos (by norm_num)]
    rw [show ((([0, 0, 0, 0] : List ℝ).drop 0).take
        (min (0 + 3) ([0, 0, 0, 0] : List ℝ).length - 0)) = [0, 0, 0] from by
      norm_num]
    rw [e1]
    simp only [List.head?_cons]
    rw [if_neg (by norm_num)]
    rw [show (4 : ℕ) = 3 + 1 from rfl, llLoop, if_pos (by norm_num)]
    rw [show ((([0, 0, 0, 0] : List ℝ).drop 3).take
        (min (3 + 3) ([0, 0, 0, 0] : List ℝ).length - 3)) = [0] from by norm_num]
    rw [e2]
    simp

theorem fftC_length (x : List ℂ) : (fftC x).length = x.length := by
  simp [fftC]

theorem ifftC_length (x : List ℂ) : (ifftC x).length = x.length := by
  simp [ifftC]

theorem g_window_length (L : ℕ) (freq factor : ℝ) :
    (g_window L freq factor).length = L := by
  simp [g_window]

theorem stockwellRow_length (vfft : List ℂ) (n : ℕ) (a : ℤ) (freq factor : ℝ)
    (h : a.toNat + n ≤ vfft.length) :
    (stockwellRow vfft n a freq factor).length = n := by
  rw [stockwellRow, ifftC_length, List.length_zipWith, List.length_map,
    g_window_length, List.length_take, List.length_drop]
  omega

-- counterexample evaluation
theorem setRow_some (st : List (List ℂ)) (r n : ℕ) (row : List ℂ)
    (h1 : r < st.length) (h2 : row.length = n) :
    setRow st r n row = some (st.set r row) := by
  rw [setRow, if_pos]
  exact ⟨h1, h2⟩

theorem setRow_fail (st : List (List ℂ)) (r n : ℕ) (row : List ℂ)
    (h1 : ¬ r < st.length) :
    setRow st r n row = none := by
  rw [setRow, if_neg]
  intro h
  exact h1 h.1

theorem stockwell_st_cex :
    stockwell_st (List.replicate 4 (0:ℝ)) 0 3 2 1 = none := by
  unfold stockwell_st
  simp only [List.length_replicate, eq_self_iff_true, if_true]
  rw [show ⌈(((3:ℕ):ℝ) - ((0:ℕ):ℝ) + 1) / 2⌉₊ = 2 from by
    rw [show (((3:ℕ):ℝ) - ((0:ℕ):ℝ) + 1) / 2 = ((2:ℕ):ℝ) by push_cast; ring]
    exact Nat.ceil_natCast 2]
  rw [show linspace 2 (((3:ℕ):ℝ) - ((0:ℕ):ℝ)) (3 - 0) = [2, 5/2, 3] from by
    norm_num [linspace, List.range_succ]]
  rw [setRow_some _ 0 4 _ (by simp) (by simp)]
  simp only [Option.some_bind, List.foldlM_cons, List.foldlM_nil, Option.pure_def,
    Option.bind_eq_bind]
  simp only [show Int.toNat ⌊((2:ℝ) - 1) / 2 + 1⌋ = 1 from by
      rw [show ⌊((2:ℝ) - 1) / 2 + 1⌋ = (1:ℤ) from by norm_num]
      rfl,
    show Int.toNat ⌊((5/2:ℝ) - 1) / 2 + 1⌋ = 1 from by
      rw [show ⌊((5/2:ℝ) - 1) / 2 + 1⌋ = (1:ℤ) from by norm_num]
      rfl,
    show Int.toNat ⌊((3:ℝ) - 1) / 2 + 1⌋ = 2 from by
      rw [show ⌊((3:ℝ) - 1) / 2 + 1⌋ = (2:ℤ) from by norm_num]
      rfl,
    show ⌊((0:ℕ):ℝ) + 2⌋ = (2:ℤ) from by push_cast; norm_num,
    show ⌊((0:ℕ):ℝ) + 5/2⌋ = (2:ℤ) from by push_cast; norm_num,
    show ⌊((0:ℕ):ℝ) + 3⌋ = (3:ℤ) from by push_cast; norm_num]
  have hv : (fftC (List.map Complex.ofReal (List.replicate 4 (0:ℝ))) ++
      fftC (List.map Complex.ofReal (List.replicate 4 (0:ℝ)))).length = 8 := by
    rw [List.length_append, fftC_length]
    simp
  rw [setRow_some _ 1 4 _ (by simp)
    (stockwellRow_length _ 4 _ _ _ (by rw [hv]; decide))]
  simp only [Option.some_bind]
  rw [setRow_some _ 1 4 _ (by simp)
    (stockwellRow_length _ 4 _ _ _ (by rw [hv]; decide))]
  simp only [Option.some_bind]
  rw [setRow_fail _ 2 4 _ (by simp)]
  rfl

theorem linspace_one_nat (M : ℕ) :
    linspace 1 (M : ℝ) M = (List.range M).map (fun t => ((t + 1 : ℕ) : ℝ)) := by
  unfold linspace
  rcases eq_or_ne M 1 with rfl | hM
  · rw [if_pos rfl]
    norm_num [List.range_succ]
  · rw [if_neg hM]
    apply List.map_congr_left
    intro t ht
    rcases Nat.eq_zero_or_pos M with rfl | hM0
    · simp at ht
    · have hM2 : 2 ≤ M := by omega
      have hM1 : (M : ℝ) - 1 ≠ 0 := by
        have h2 : (2 : ℝ) ≤ (M : ℝ) := by exact_mod_cast hM2
        intro hcon
        nlinarith
      push_cast
      field_simp
      ring

theorem stockwell_loop_inv (vfft : List ℂ) (n : ℕ) (factor : ℝ)
    (hv : vfft.length = 2 * n) :
    ∀ (ts : List ℕ) (st : List (List ℂ)),
      (∀ t ∈ ts, t + 1 < st.length ∧ t + 1 ≤ n) →
      (∀ row ∈ st, row.length = n) →
      ∃ st2,
        List.foldlM
          (fun st t => setRow st (t + 1) n
            (stockwellRow vfft n ((t + 1 : ℕ) : ℤ) (((t + 1 : ℕ)) : ℝ) factor))
          st ts = some st2 ∧
        st2.length = st.length ∧
        (∀ row ∈ st2, row.length = n) ∧
        st2.getD 0 [] = st.getD 0 [] := by
  intro ts
  induction ts with
  | nil =>
    intro st h1 h2
    exact ⟨st, rfl, rfl, h2, rfl⟩
  | cons t ts ih =>
    intro st h1 h2
    have ht := h1 t (List.mem_cons_self t ts)
    have hrowlen : (stockwellRow vfft n ((t + 1 : ℕ) : ℤ) (((t + 1 : ℕ)) : ℝ) factor).length = n := by
      apply stockwellRow_length
      rw [hv, Int.toNat_natCast]
      omega
    have hset : setRow st (t + 1) n
        (stockwellRow vfft n ((t + 1 : ℕ) : ℤ) (((t + 1 : ℕ)) : ℝ) factor) =
        some (st.set (t + 1)
          (stockwellRow vfft n ((t + 1 : ℕ) : ℤ) (((t + 1 : ℕ)) : ℝ) factor)) :=
      setRow_some _ _ _ _ ht.1 hrowlen
    simp only [List.foldlM_cons]
    rw [hset]
    simp only [Option.bind_eq_bind, Option.some_bind]
    obtain ⟨st2, hfold, hlen, hrows, h0⟩ :=
      ih (st.set (t + 1)
          (stockwellRow vfft n ((t + 1 : ℕ) : ℤ) (((t + 1 : ℕ)) : ℝ) factor))
        (fun u hu => by
          have := h1 u (List.mem_cons_of_mem t hu)
          rw [List.length_set]
          exact this)
        (fun row hrow => by
          rcases List.mem_or_eq_of_mem_set hrow with h | h
          · exact h2 row h
          · rw [h]
            exact hrowlen)
    refine ⟨st2, hfold, by rw [hlen, List.length_set], hrows, ?_⟩
    rw [h0, List.getD_eq_getElem?_getD, List.getD_eq_getElem?_getD,
      List.getElem?_set_ne (by omega)]

theorem stockwell_st_f1 (signal : List ℝ) (factor : ℝ) (max_freq : ℕ)
    (hn : 1 ≤ signal.length) (hmax : max_freq ≤ signal.length) :
    ∃ st, stockwell_st signal 0 max_freq 1 factor = some st ∧
      st.length = max_freq + 1 ∧
      (∀ row ∈ st, row.length = signal.length) ∧
      st.getD 0 [] = List.replicate signal.length
        (((signal.sum / (signal.length : ℝ)) : ℝ) : ℂ) := by
  unfold stockwell_st
  simp only [Nat.cast_zero, sub_zero, Nat.sub_zero, div_one, zero_add,
    sub_add_cancel]
  rw [show ⌈((max_freq : ℝ) + 1)⌉₊ = max_freq + 1 from by
    rw [show ((max_freq : ℝ) + 1) = ((max_freq + 1 : ℕ) : ℝ) by push_cast; ring]
    exact Nat.ceil_natCast _]
  rw [setRow_some _ 0 _ _ (by simp) (by simp)]
  simp only [Option.some_bind]
  rw [linspace_one_nat, List.foldlM_map]
  simp only [Int.floor_natCast, Int.toNat_natCast]
  have hv : (fftC (signal.map Complex.ofReal) ++ fftC (signal.map Complex.ofReal)).length =
      2 * signal.length := by
    rw [List.length_append, fftC_length, List.length_map]
    omega
  obtain ⟨st2, hfold, hlen, hrows, h0⟩ :=
    stockwell_loop_inv _ signal.length factor hv (List.range max_freq)
      ((List.replicate (max_freq + 1) (List.replicate signal.length (0:ℂ))).set 0
        (List.replicate signal.length (((signal.sum / (signal.length : ℝ)) : ℝ) : ℂ)))
      (fun t htm => by
        rw [List.length_set, List.length_replicate]
        have := List.mem_range.mp htm
        omega)
      (fun row hrow => by
        rcases List.mem_or_eq_of_mem_set hrow with h | h
        · rw [List.eq_of_mem_replicate h]
          simp
        · rw [h]
          simp)
  refine ⟨st2, hfold, ?_, hrows, ?_⟩
  · rw [hlen, List.length_set, List.length_replicate]
  · rw [h0, List.getD_eq_getElem?_getD,
      List.getElem?_set_self (by simp)]
    rfl


/-- C9: the claim quantifies over all valid frequency parameters, including
frequency steps `f_fs ≥ 2`; with `min_freq = 0`, `max_freq = 3 ≤ N = 4`,
`f_fs = 2` the matrix has `ceil((3+1)/2) = 2` rows but the last loop
iteration (`i = 3`) writes row `int((3-1)/2 + 1) = 2`, which is out of
bounds — the routine raises an IndexError (modelled as `none`) instead of
returning the matrix. -/
theorem claim_C9_counterexample :
    compute_stockwell_transform (List.replicate 4 (0 : ℝ)) 1 0 3 2 1 = none := by
  unfold compute_stockwell_transform
  rw [stockwell_st_cex]
  rfl

/-- C9 (amended): for every signal of length `N ≥ 1`, `min_freq = 0`,
`max_freq ≤ N`, and frequency step `f_fs = 1` (the only step for which the
loop's row indexing stays within the allocated matrix in general),
`compute_stockwell_transform` returns a complex matrix with exactly
`ceil((max_freq - min_freq + 1)/f_fs)` rows and `N` columns whose row 0 is
`mean(signal)` at every time index. -/
theorem claim_C9 (signal : List ℝ) (fs factor : ℝ) (max_freq : ℕ)
    (hn : 1 ≤ signal.length) (hmax : max_freq ≤ signal.length) :
    ∃ st t f,
      compute_stockwell_transform signal fs 0 max_freq 1 factor = some (st, t, f) ∧
      st.length = ⌈((max_freq : ℝ) - ((0 : ℕ) : ℝ) + 1) / 1⌉₊ ∧
      (∀ row ∈ st, row.length = signal.length) ∧
      st.getD 0 [] = List.replicate signal.length
        (((signal.sum / (signal.length : ℝ)) : ℝ) : ℂ) := by
  obtain ⟨st, hst, hlen, hrows, h0⟩ := stockwell_st_f1 signal factor max_freq hn hmax
  unfold compute_stockwell_transform
  rw [hst]
  refine ⟨st, _, _, rfl, ?_, hrows, h0⟩
  rw [hlen]
  rw [show ((max_freq : ℝ) - ((0 : ℕ) : ℝ) + 1) / 1 = ((max_freq + 1 : ℕ) : ℝ) by
    push_cast; ring]
  rw [Nat.ceil_natCast]

theorem claim_C9_witness :
    1 ≤ ([1, 2] : List ℝ).length ∧ 2 ≤ ([1, 2] : List ℝ).length ∧
      ∃ st t f,
        compute_stockwell_transform ([1, 2] : List ℝ) 10 0 2 1 1 = some (st, t, f) ∧
        st.length = ⌈(((2 : ℕ) : ℝ) - ((0 : ℕ) : ℝ) + 1) / 1⌉₊ ∧
        (∀ row ∈ st, row.length = ([1, 2] : List ℝ).length) ∧
        st.getD 0 [] = List.replicate ([1, 2] : List ℝ).length
          (((([1, 2] : List ℝ).sum / (([1, 2] : List ℝ).length : ℝ)) : ℝ) : ℂ) :=
  ⟨by norm_num, by norm_num, claim_C9 ([1, 2] : List ℝ) 10 1 2 (by norm_num) (by norm_num)⟩


end Epycom
